import Mathlib

/-!
# Verification of the recipe ingredient-network subsystem

A shallow embedding of `recipe.py` (class `Recipes`): the ingredient
catalog (`build_ingredient_list` / `clean_ingredient_name`), the
co-occurrence graph built with networkx (`build_ingredient_network`),
the recommendation query (`get_ingredient_recommendations`) and the
raw-name co-occurrence query (`get_most_connected_ingredient`).

Python dicts are modelled as insertion-ordered association lists,
Python sets as duplicate-free lists built by append-if-absent, the
networkx undirected graph as a node list plus an edge list keyed by
the normalized (unordered) endpoint pair, and a raised exception as
`Except.error`.
-/

namespace Recipes

/-- An ingredient record as consumed by the core: the `id` and `name`
fields of one entry of a recipe's `extendedIngredients` list. -/
structure Ingredient where
  id : Int
  name : String
deriving DecidableEq, Repr

/-- A recipe is its ordered list of ingredient records. -/
abbrev Recipe := List Ingredient

/-- The corpus: the in-memory list of recipes (`self.recipes`). -/
abbrev Corpus := List Recipe

/-! ## Python string primitives -/

/-- Whitespace stripped by Python `str.strip()`. -/
def pySpace (c : Char) : Bool :=
  c = ' ' ∨ c = '\t' ∨ c = '\n' ∨ c = '\r' ∨ c = '\x0b' ∨ c = '\x0c'

/-- `str.strip()` on the character list. -/
def pyStripL (s : List Char) : List Char :=
  ((s.dropWhile pySpace).reverse.dropWhile pySpace).reverse

/-- `str.strip()`. -/
def pyStrip (s : String) : String := ⟨pyStripL s.data⟩

/-- `str.lower()` (ASCII case mapping, which covers the corpus data). -/
def pyLower (s : String) : String := ⟨s.data.map Char.toLower⟩

/-! ## `clean_ingredient_name`

The Python regex is
`r'\d+|tsp|tbsp|oz|g|kg|lbs|cm|inch|cup|tablespoon|teaspoon|pound|grams|milliliter|liter|serving|to|and|from|by|\\+|\\-|\(|\)'`
substituted by `''` in one pass, then `.strip()`.

In the raw string, `\\+` denotes regex `\\+`, i.e. one or more literal
backslash characters, and `\\-` denotes a literal backslash followed
by `-` (and is unreachable, because `\\+` is tried first and already
matches at any backslash).  The plus and minus characters themselves
are never matched.  `re.sub` scans left to right; at each position the
alternatives are tried in order and the first that matches wins. -/

/-- The literal word alternatives of the cleaning regex, in the order
they appear in the alternation. -/
def wordTokens : List (List Char) :=
  [['t','s','p'], ['t','b','s','p'], ['o','z'], ['g'], ['k','g'],
   ['l','b','s'], ['c','m'], ['i','n','c','h'], ['c','u','p'],
   ['t','a','b','l','e','s','p','o','o','n'],
   ['t','e','a','s','p','o','o','n'], ['p','o','u','n','d'],
   ['g','r','a','m','s'], ['m','i','l','l','i','l','i','t','e','r'],
   ['l','i','t','e','r'], ['s','e','r','v','i','n','g'],
   ['t','o'], ['a','n','d'], ['f','r','o','m'], ['b','y']]

/-- Length of the maximal run of characters satisfying `p` at the head. -/
def countLeading (p : Char → Bool) (s : List Char) : Nat :=
  (s.takeWhile p).length

/-- Length of the match of the cleaning regex at the current position
(`0` when no alternative matches).  `\d+` is tried first (greedy),
then the word tokens in alternation order, then the backslash run
(`\\+` in the raw pattern), then `\(` and `\)`.  No word token starts
with a digit, a backslash or a parenthesis, so dispatching on the head
character is exact. -/
def matchLen : List Char → Nat
  | [] => 0
  | c :: rest =>
    if c.isDigit then countLeading Char.isDigit (c :: rest)
    else
      match wordTokens.find? (fun t => t.isPrefixOf (c :: rest)) with
      | some t => t.length
      | none =>
        if c = '\\' then countLeading (fun x => x = '\\') (c :: rest)
        else if c = '(' ∨ c = ')' then 1 else 0

/-- One left-to-right pass of `re.sub(pattern, '', s)`, with fuel; the
fuel is always instantiated with the length of the string, which
suffices because every step consumes at least one character. -/
def pySubAux : Nat → List Char → List Char
  | 0, _ => []
  | _ + 1, [] => []
  | fuel + 1, c :: rest =>
    let n := matchLen (c :: rest)
    if 0 < n then pySubAux fuel (rest.drop (n - 1))
    else c :: pySubAux fuel rest

/-- `re.sub(pattern, '', s)`. -/
def pySub (s : List Char) : List Char := pySubAux s.length s

/-- `Recipes.clean_ingredient_name`: one regex substitution pass, then
`strip()`. -/
def clean_ingredient_name (ingredient : String) : String :=
  ⟨pyStripL (pySub ingredient.data)⟩

/-- The dedup key computed in `build_ingredient_list`:
`clean_ingredient_name(ingredient['name'].strip().lower())`. -/
def cleanedKey (nm : String) : String :=
  clean_ingredient_name (pyLower (pyStrip nm))

/-! ## `build_ingredient_list` (the catalog)

`self.ingredient_list` is a Python dict `ingredient_id -> raw name`,
modelled as an insertion-ordered association list.  Assigning to an
existing key overwrites the value in place; a new key is appended. -/

/-- Python dict assignment `d[k] = v` on an association list. -/
def dictInsert (d : List (Int × String)) (k : Int) (v : String) :
    List (Int × String) :=
  if d.any (fun p => p.1 = k) then
    d.map (fun p => if p.1 = k then (p.1, v) else p)
  else d ++ [(k, v)]

/-- One ingredient record of the catalog build: compute the cleaned
key; if unseen, mark it seen and assign `id -> raw name`. -/
def catalogStep (st : List String × List (Int × String)) (ing : Ingredient) :
    List String × List (Int × String) :=
  let key := cleanedKey ing.name
  if key ∈ st.1 then st
  else (key :: st.1, dictInsert st.2 ing.id ing.name)

/-- Stable insertion (ascending) used to model Python `sorted` with
key `item[1].lower()`: `x` is placed before the first strictly greater
element, after equal ones already present. -/
def insertAscByName (x : Int × String) :
    List (Int × String) → List (Int × String)
  | [] => [x]
  | y :: ys =>
    if pyLower x.2 < pyLower y.2 then x :: y :: ys
    else y :: insertAscByName x ys

/-- Python `sorted(items, key=lambda item: item[1].lower())`: the
unique stable ascending sort by lowercased display name. -/
def pySortByNameLower (l : List (Int × String)) : List (Int × String) :=
  l.foldr insertAscByName []

/-- `Recipes.build_ingredient_list`: walk every ingredient record of
every recipe, dedup by cleaned key (first seen wins), then sort the
dict by lowercased display name. -/
def build_ingredient_list (recipes : Corpus) : List (Int × String) :=
  pySortByNameLower
    ((recipes.foldl (fun st r => r.foldl catalogStep st) ([], [])).2)

/-! ## `build_ingredient_network` (the networkx graph)

`nx.Graph()`: nodes are a dict `id -> attributes` (we keep the
optional `name` attribute), and an undirected edge is a single shared
attribute dict; we key edges by the normalized endpoint pair, so that
`G[u][v]` and `G[v][u]` are the same entry, exactly as in networkx. -/

/-- Normalized key of the undirected edge `{u, v}`. -/
def ekey (u v : Int) : Int × Int := if u ≤ v then (u, v) else (v, u)

/-- The networkx graph state. -/
structure NxGraph where
  nodes : List (Int × Option String)
  edges : List ((Int × Int) × Nat)
deriving DecidableEq, Repr

/-- First-match association lookup on the edge list. -/
def lookupW (es : List ((Int × Int) × Nat)) (k : Int × Int) : Option Nat :=
  match es with
  | [] => none
  | p :: rest => if p.1 = k then some p.2 else lookupW rest k

/-- `G.has_node(u)`. -/
def has_node (g : NxGraph) (u : Int) : Bool :=
  g.nodes.any (fun p => p.1 = u)

/-- `G.add_node(u, name=nm)` (the build only calls it on fresh ids). -/
def add_node (g : NxGraph) (u : Int) (nm : String) : NxGraph :=
  { g with nodes := g.nodes ++ [(u, some nm)] }

/-- Auto-creation of an endpoint by `G.add_edge`: a missing node is
added with no `name` attribute. -/
def addNodeAuto (g : NxGraph) (u : Int) : NxGraph :=
  if has_node g u then g else { g with nodes := g.nodes ++ [(u, none)] }

/-- `G.has_edge(u, v)`. -/
def has_edge (g : NxGraph) (u v : Int) : Bool :=
  (lookupW g.edges (ekey u v)).isSome

/-- Set the weight attribute of edge `{u,v}` to `w`, creating the
entry if absent (the semantics of `G.add_edge(u, v, weight=w)` on the
edge dict). -/
def setW (es : List ((Int × Int) × Nat)) (k : Int × Int) (w : Nat) :
    List ((Int × Int) × Nat) :=
  if (lookupW es k).isSome then
    es.map (fun p => if p.1 = k then (p.1, w) else p)
  else es ++ [(k, w)]

/-- `G.add_edge(u, v, weight=w)`: create missing endpoints, then set
the weight attribute of the single undirected edge. -/
def add_edge (g : NxGraph) (u v : Int) (w : Nat) : NxGraph :=
  let g1 := addNodeAuto (addNodeAuto g u) v
  { g1 with edges := setW g1.edges (ekey u v) w }

/-- `G[u][v]['weight'] += 1`: the shared attribute dict of the single
undirected edge is incremented, so both directions see the update. -/
def incWeight (g : NxGraph) (u v : Int) : NxGraph :=
  { g with
    edges := g.edges.map
      (fun p => if p.1 = ekey u v then (p.1, p.2 + 1) else p) }

/-- Body of the inner loop over `other_ingredient`: skip when the two
records are equal as full records, otherwise create the edge with
weight 1 or increment it. -/
def innerStep (ing : Ingredient) (g : NxGraph) (other : Ingredient) : NxGraph :=
  if ing ≠ other then
    if has_edge g ing.id other.id then incWeight g ing.id other.id
    else add_edge g ing.id other.id 1
  else g

/-- Body of the loop over `ingredient`: add the node on first sight
(with its raw name), then run the inner loop over the whole recipe. -/
def recipeStep (r : Recipe) (g : NxGraph) (ing : Ingredient) : NxGraph :=
  r.foldl (innerStep ing)
    (if has_node g ing.id then g else add_node g ing.id ing.name)

/-- `Recipes.build_ingredient_network`. -/
def build_ingredient_network (recipes : Corpus) : NxGraph :=
  recipes.foldl (fun g r => r.foldl (recipeStep r) g) ⟨[], []⟩

/-- The weight of edge `{u,v}` (`none` when the edge is absent). -/
def weightOf (g : NxGraph) (u v : Int) : Option Nat :=
  lookupW g.edges (ekey u v)

/-- `G[u][v]['weight']` where the edge is known to exist (defaulting
to 0 otherwise). -/
def wD (g : NxGraph) (u v : Int) : Nat := (weightOf g u v).getD 0

/-! ## `get_ingredient_recommendations`

The interactive number-entry loop is external input: it terminates
only with a `choice` between 1 and the number of matches, which we
take as a parameter.  Note the query's neighbor names come from
`self.ingredient_list.get(n, 'Unknown')` — the catalog, not the graph
node attributes. -/

/-- Python `q in s` on strings: contiguous substring test. -/
def isSubstrAt : List Char → List Char → Bool
  | p, [] => p.isEmpty
  | p, c :: t => p.isPrefixOf (c :: t) || isSubstrAt p t

/-- `[(id, name) for id, name in self.ingredient_list.items() if
ingredient_name.lower() in name.lower()]`. -/
def matchesOf (il : List (Int × String)) (q : String) : List (Int × String) :=
  il.filter (fun p => isSubstrAt (pyLower q).data (pyLower p.2).data)

/-- The `(ingredient_id, matched_name)` pair picked by the validated
user choice (1-based index into the match list). -/
def pickOf (il : List (Int × String)) (q : String) (choice : Nat) :
    Int × String :=
  (matchesOf il q).getD (choice - 1) (0, "")

/-- Catalog lookup `self.ingredient_list.get(n, default)`. -/
def lookupName (il : List (Int × String)) (k : Int) : Option String :=
  match il with
  | [] => none
  | p :: rest => if p.1 = k then some p.2 else lookupName rest k

/-- `list(self.myRecipes_graph.neighbors(u))`: the adjacency keys of
`u` in insertion order, i.e. the incident edges in creation order
(a self-loop contributes `u` once). -/
def neighborsOf (g : NxGraph) (u : Int) : List Int :=
  g.edges.filterMap
    (fun p =>
      if p.1.1 = u then some p.1.2
      else if p.1.2 = u then some p.1.1 else none)

/-- The `(display name, weight)` entries built for the neighbors. -/
def entriesOf (il : List (Int × String)) (g : NxGraph) (u : Int) :
    List (String × Nat) :=
  (neighborsOf g u).map
    (fun n => ((lookupName il n).getD "Unknown", wD g u n))

/-- Stable descending insertion by weight: `x` goes before the first
element with weight not above `x`'s, after strictly heavier ones. -/
def insertDescByWeight (x : String × Nat) :
    List (String × Nat) → List (String × Nat)
  | [] => [x]
  | y :: ys =>
    if y.2 ≤ x.2 then x :: y :: ys
    else y :: insertDescByWeight x ys

/-- Python `sorted(entries, key=lambda x: x[1], reverse=True)`: the
unique stable descending sort by weight. -/
def pySortDescByWeight (l : List (String × Nat)) : List (String × Nat) :=
  l.foldr insertDescByWeight []

/-- `Recipes.get_ingredient_recommendations` (with the resolved
`choice` supplied by the external interaction loop). -/
def get_ingredient_recommendations (il : List (Int × String)) (g : NxGraph)
    (ingredient_name : String) (choice : Nat) (top_n : Nat) :
    List (String × Nat) :=
  let ms := matchesOf il ingredient_name
  if ms.isEmpty then []
  else
    let pick := pickOf il ingredient_name choice
    let nbrs := neighborsOf g pick.1
    if nbrs.isEmpty then []
    else (pySortDescByWeight (entriesOf il g pick.1)).take top_n

/-- The Python signature's default `top_n=5`. -/
def get_ingredient_recommendations_default (il : List (Int × String))
    (g : NxGraph) (ingredient_name : String) (choice : Nat) :
    List (String × Nat) :=
  get_ingredient_recommendations il g ingredient_name choice 5

/-! ## `get_most_connected_ingredient`

`co_occurrence_graph` is a dict keyed by the trimmed lowercased raw
name, with Python-set values; modelled as an insertion-ordered
association list whose values are duplicate-free lists grown by
append-if-absent (only membership and length are ever used). -/

/-- The trimmed lowercased raw name used as the key. -/
def pyNameOf (ing : Ingredient) : String := pyLower (pyStrip ing.name)

/-- `[ingredient['name'].strip().lower() for ingredient in ...]`. -/
def recipeRawNames (r : Recipe) : List String := r.map pyNameOf

/-- The co-occurrence dict. -/
abbrev CoMap := List (String × List String)

/-- `ingredient in co_occurrence_graph`. -/
def hasKey (m : CoMap) (k : String) : Bool := m.any (fun p => p.1 = k)

/-- First-match value lookup. -/
def lookupVal (m : CoMap) (k : String) : Option (List String) :=
  match m with
  | [] => none
  | p :: rest => if p.1 = k then some p.2 else lookupVal rest k

/-- `co_occurrence_graph[ingredient] = set()` on a missing key. -/
def ensureKey (m : CoMap) (k : String) : CoMap :=
  if hasKey m k then m else m ++ [(k, [])]

/-- Python `set.add`. -/
def setAdd (s : List String) (x : String) : List String :=
  if x ∈ s then s else s ++ [x]

/-- `co_occurrence_graph[k].add(x)`. -/
def addTo (m : CoMap) (k x : String) : CoMap :=
  m.map (fun p => if p.1 = k then (p.1, setAdd p.2 x) else p)

/-- The inner loop `for j in range(len(ingredients)): if i != j:
co_occurrence_graph[k].add(ingredients[j])`, folded over the
enumerated name list. -/
def jStep (i : Nat) (k : String) (m : CoMap) (q : Nat × String) : CoMap :=
  if i ≠ q.1 then addTo m k q.2 else m

/-- The body of `for i, ingredient in enumerate(ingredients)`. -/
def iStep (names : List String) (m : CoMap) (p : Nat × String) : CoMap :=
  names.enum.foldl (jStep p.1 p.2) (ensureKey m p.2)

/-- Processing one recipe of the corpus. -/
def processRecipe (m : CoMap) (r : Recipe) : CoMap :=
  (recipeRawNames r).enum.foldl (iStep (recipeRawNames r)) m

/-- The fully built `co_occurrence_graph`. -/
def buildCoOcc (recipes : Corpus) : CoMap :=
  recipes.foldl processRecipe []

/-- The fold inside Python `max(items, key=...)`: the running best is
replaced only on a strictly larger key, so the first maximum wins. -/
def maxFold (best : String × Nat) : CoMap → String × Nat
  | [] => best
  | y :: ys => maxFold (if best.2 < y.2.length then (y.1, y.2.length) else best) ys

/-- `max(co_occurrence_graph.items(), key=lambda x: len(x[1]))`,
followed by `(most_connected[0], len(most_connected[1]))`; `max` of an
empty sequence raises `ValueError`, modelled as `Except.error`. -/
def pyMaxByLen (m : CoMap) : Except String (String × Nat) :=
  match m with
  | [] => Except.error "max() arg is an empty sequence"
  | x :: xs => Except.ok (maxFold (x.1, x.2.length) xs)

/-- `Recipes.get_most_connected_ingredient`. -/
def get_most_connected_ingredient (recipes : Corpus) :
    Except String (String × Nat) :=
  pyMaxByLen (buildCoOcc recipes)

/-! ## Closed-form characterization of the built edge weights

`weightOf (build_ingredient_network c) u v` is computed below as the
number of ordered pairs of unequal ingredient records inside a single
recipe whose ids normalize to the edge key `{u,v}`, summed over the
corpus. -/

/-- The ordered pair `(a, b)` of records contributes to edge `{u,v}`:
the records are unequal (Python `ingredient != other_ingredient`) and
their ids normalize to the key of `{u,v}`. -/
def pairPred (u v : Int) (a b : Ingredient) : Bool :=
  decide (a ≠ b) && decide (ekey a.id b.id = ekey u v)

/-- Contribution of one recipe to edge `{u,v}`. -/
def pairContrib (r : Recipe) (u v : Int) : Nat :=
  (r.map (fun a => r.countP (pairPred u v a))).sum

/-- Contribution of the whole corpus to edge `{u,v}`. -/
def totalContrib (c : Corpus) (u v : Int) : Nat :=
  (c.map (fun r => pairContrib r u v)).sum

/-- The number of recipes whose ingredient list contains both `u` and
`v` on distinct (unequal) entries — the quantity the specification
names as the intended edge weight. -/
def containsBothDistinct (r : Recipe) (u v : Int) : Bool :=
  r.any (fun a => r.any (fun b =>
    decide (a ≠ b) && decide (a.id = u) && decide (b.id = v)))

/-- Count of recipes containing both `u` and `v` as distinct entries. -/
def recipesContainingBoth (c : Corpus) (u v : Int) : Nat :=
  (c.filter (fun r => containsBothDistinct r u v)).length

/-- Every weight stored in the edge list is positive. -/
def PosW (g : NxGraph) : Prop := ∀ p ∈ g.edges, 0 < p.2

/-! ## Corpus-level description of `get_most_connected_ingredient`

These definitions follow the specification's wording (first-encounter
order of trimmed lowercased raw names; for each name, the set of raw
names at other positions of the same recipe) and are proved equal to
what the code computes. -/

/-- Dedup keeping first occurrences — the result of folding Python
`set.add` over a list, which is how insertion order arises. -/
def dedupKF (l : List String) : List String := l.foldl setAdd []

/-- The names at all positions other than `i`, in position order. -/
def partnersAt (names : List String) (i : Nat) : List String :=
  names.enum.filterMap (fun q => if i ≠ q.1 then some q.2 else none)

/-- The raw names co-occurring with `n` inside one recipe's name list:
for every position holding `n`, all names at other positions, in
position order. -/
def coPartners (names : List String) (n : String) : List String :=
  names.enum.flatMap (fun p => if p.2 = n then partnersAt names p.1 else [])

/-- Extending a seen-key list by the unseen elements of `l`, in
order: the shape taken by the key set of the co-occurrence dict. -/
def extendKeys (ks : List String) (l : List String) : List String :=
  l.foldl setAdd ks

/-- All trimmed lowercased raw names of the corpus, in encounter
order, each kept at its first occurrence. -/
def spec_encounterOrder (c : Corpus) : List String :=
  dedupKF (c.flatMap recipeRawNames)

/-- The accumulated co-occurrence set of the name `n`, as an
encounter-ordered duplicate-free list. -/
def spec_coOccurring (c : Corpus) (n : String) : List String :=
  dedupKF (c.flatMap (fun r => coPartners (recipeRawNames r) n))

theorem ekey_comm (u v : Int) : ekey u v = ekey v u := by
  unfold ekey
  by_cases h : u ≤ v <;> by_cases h2 : v ≤ u <;> simp [h, h2]
  · exact ⟨le_antisymm h h2, le_antisymm h2 h⟩
  · omega

theorem ekey_self_iff (a b u : Int) : ekey a b = (u, u) ↔ a = u ∧ b = u := by
  unfold ekey
  by_cases h : a ≤ b <;> simp [h, Prod.ext_iff] <;> constructor <;>
    rintro ⟨rfl, rfl⟩ <;> exact ⟨rfl, rfl⟩

theorem lookupW_append (es1 es2 : List ((Int × Int) × Nat)) (k : Int × Int) :
    lookupW (es1 ++ es2) k =
      match lookupW es1 k with
      | some w => some w
      | none => lookupW es2 k := by
  induction es1 with
  | nil => simp [lookupW]
  | cons p rest ih => by_cases h : p.1 = k <;> simp [lookupW, h, ih]

theorem lookupW_incr (es : List ((Int × Int) × Nat)) (k0 k : Int × Int) :
    lookupW (es.map (fun p => if p.1 = k0 then (p.1, p.2 + 1) else p)) k =
      if k = k0 then (lookupW es k).map (· + 1) else lookupW es k := by
  induction es with
  | nil => simp [lookupW]
  | cons p rest ih =>
    by_cases h2 : k = k0
    · subst h2
      by_cases h1 : p.1 = k
      · simp [lookupW, h1]
      · simp [lookupW, h1, ih]
    · by_cases h1 : p.1 = k0
      · have h3 : ¬ p.1 = k := by
          rw [h1]; exact fun hh => h2 hh.symm
        have h4 : ¬ k0 = k := fun hh => h2 hh.symm
        simp [lookupW, h1, h3, h4, ih, h2]
      · by_cases h3 : p.1 = k <;> simp [lookupW, h1, h3, ih, h2]

theorem lookupW_mem (es : List ((Int × Int) × Nat)) (k : Int × Int)
    (w : Nat) (h : lookupW es k = some w) : (k, w) ∈ es := by
  induction es with
  | nil => simp [lookupW] at h
  | cons p rest ih =>
    by_cases h1 : p.1 = k
    · simp only [lookupW, if_pos h1, Option.some.injEq] at h
      have : (k, w) = p := by
        cases p
        simp_all
      rw [this]
      exact .head _
    · simp only [lookupW, if_neg h1] at h
      exact .tail _ (ih h)

theorem edges_addNodeAuto (g : NxGraph) (u : Int) :
    (addNodeAuto g u).edges = g.edges := by
  unfold addNodeAuto; split <;> rfl

theorem edges_add_node (g : NxGraph) (u : Int) (nm : String) :
    (add_node g u nm).edges = g.edges := rfl

theorem edges_add_edge (g : NxGraph) (u v : Int) (w : Nat) :
    (add_edge g u v w).edges = setW g.edges (ekey u v) w := by
  unfold add_edge addNodeAuto
  split <;> split <;> rfl

theorem wD_innerStep (a b : Ingredient) (g : NxGraph) (u v : Int) :
    wD (innerStep a g b) u v =
      wD g u v + (if pairPred u v a b then 1 else 0) := by
  by_cases hne : a ≠ b
  · by_cases he : has_edge g a.id b.id = true
    · unfold innerStep
      rw [if_pos hne, if_pos he]
      unfold has_edge at he
      rw [Option.isSome_iff_exists] at he
      obtain ⟨w, hw⟩ := he
      by_cases hk : ekey u v = ekey a.id b.id
      · have hp : pairPred u v a b = true := by
          simp [pairPred, hne, hk.symm]
        rw [hp]
        unfold wD weightOf incWeight
        simp only [lookupW_incr, hk, if_pos rfl, hw]
        simp
      · have hp : pairPred u v a b = false := by
          simp only [pairPred, Bool.and_eq_false_iff, decide_eq_false_iff_not]
          right
          exact fun hh => hk hh.symm
        rw [hp]
        unfold wD weightOf incWeight
        simp only [lookupW_incr, if_neg hk]
        simp
    · unfold innerStep
      rw [if_pos hne, if_neg he]
      unfold has_edge at he
      have he2 : lookupW g.edges (ekey a.id b.id) = none := by
        cases hl : lookupW g.edges (ekey a.id b.id)
        · rfl
        · rw [hl] at he; simp at he
      unfold wD weightOf
      rw [edges_add_edge]
      unfold setW
      rw [he2]
      simp only [Option.isSome_none, Bool.false_eq_true, if_false]
      rw [lookupW_append]
      by_cases hk : ekey u v = ekey a.id b.id
      · have hp : pairPred u v a b = true := by
          simp [pairPred, hne, hk.symm]
        rw [hp, hk, he2]
        simp [lookupW]
      · have hp : pairPred u v a b = false := by
          simp only [pairPred, Bool.and_eq_false_iff, decide_eq_false_iff_not]
          right
          exact fun hh => hk hh.symm
        rw [hp]
        have hk2 : ¬ ((ekey a.id b.id, 1) : (Int × Int) × Nat).1 = ekey u v :=
          fun hh => hk hh.symm
        cases hl : lookupW g.edges (ekey u v) <;>
          simp [lookupW, hk2]
  · have hp : pairPred u v a b = false := by
      simp [pairPred, hne]
    simp [innerStep, hne, hp]

theorem wD_foldl_inner (a : Ingredient) (u v : Int) (l : List Ingredient) :
    ∀ g : NxGraph,
      wD (l.foldl (innerStep a) g) u v = wD g u v + l.countP (pairPred u v a) := by
  induction l with
  | nil => intro g; simp
  | cons b rest ih =>
    intro g
    rw [List.foldl_cons, ih, wD_innerStep, List.countP_cons]
    by_cases hp : pairPred u v a b = true <;> simp [hp] <;> omega

theorem wD_recipeStep (r : Recipe) (a : Ingredient) (g : NxGraph) (u v : Int) :
    wD (recipeStep r g a) u v = wD g u v + r.countP (pairPred u v a) := by
  unfold recipeStep
  rw [wD_foldl_inner]
  congr 1
  split
  · rfl
  · unfold wD weightOf
    rw [edges_add_node]

theorem wD_foldl_recipe (r : Recipe) (u v : Int) (l : List Ingredient) :
    ∀ g : NxGraph,
      wD (l.foldl (recipeStep r) g) u v =
        wD g u v + (l.map (fun a => r.countP (pairPred u v a))).sum := by
  induction l with
  | nil => intro g; simp
  | cons a rest ih =>
    intro g
    rw [List.foldl_cons, ih, wD_recipeStep, List.map_cons, List.sum_cons]
    omega

theorem wD_foldl_corpus (u v : Int) (c : Corpus) :
    ∀ g : NxGraph,
      wD (c.foldl (fun g r => r.foldl (recipeStep r) g) g) u v =
        wD g u v + totalContrib c u v := by
  induction c with
  | nil => intro g; simp [totalContrib]
  | cons r rest ih =>
    intro g
    rw [List.foldl_cons, ih, wD_foldl_recipe]
    unfold totalContrib pairContrib
    rw [List.map_cons, List.sum_cons]
    omega

theorem wD_build (c : Corpus) (u v : Int) :
    wD (build_ingredient_network c) u v = totalContrib c u v := by
  unfold build_ingredient_network
  rw [wD_foldl_corpus]
  simp [wD, weightOf, lookupW]

theorem posW_incr_map (es : List ((Int × Int) × Nat)) (k : Int × Int)
    (h : ∀ p ∈ es, 0 < p.2) :
    ∀ p ∈ es.map (fun p => if p.1 = k then (p.1, p.2 + 1) else p), 0 < p.2 := by
  intro p hp
  obtain ⟨q, hq, rfl⟩ := List.mem_map.mp hp
  split
  · simp
  · exact h q hq

theorem posW_set1_map (es : List ((Int × Int) × Nat)) (k : Int × Int)
    (h : ∀ p ∈ es, 0 < p.2) :
    ∀ p ∈ es.map (fun p => if p.1 = k then (p.1, 1) else p), 0 < p.2 := by
  intro p hp
  obtain ⟨q, hq, rfl⟩ := List.mem_map.mp hp
  split
  · simp
  · exact h q hq

theorem posW_innerStep (a b : Ingredient) (g : NxGraph) (h : PosW g) :
    PosW (innerStep a g b) := by
  unfold innerStep
  split
  case isFalse => exact h
  split
  case isTrue.isTrue =>
    intro p hp
    unfold incWeight at hp
    exact posW_incr_map g.edges (ekey a.id b.id) h p hp
  case isTrue.isFalse =>
    intro p hp
    rw [edges_add_edge] at hp
    unfold setW at hp
    split at hp
    · exact posW_set1_map g.edges (ekey a.id b.id) h p hp
    · rcases List.mem_append.mp hp with h1 | h1
      · exact h p h1
      · simp at h1
        rw [h1]
        simp

theorem posW_recipeStep (r : Recipe) (a : Ingredient) (g : NxGraph)
    (h : PosW g) : PosW (recipeStep r g a) := by
  unfold recipeStep
  have base : PosW (if has_node g a.id = true then g else add_node g a.id a.name) := by
    split
    · exact h
    · intro p hp
      rw [edges_add_node] at hp
      exact h p hp
  revert base
  generalize (if has_node g a.id = true then g else add_node g a.id a.name) = g0
  induction r generalizing g0 with
  | nil => intro hb; exact hb
  | cons b rest ih =>
    intro hb
    rw [List.foldl_cons]
    exact ih (innerStep a g0 b) (posW_innerStep a b g0 hb)

theorem posW_build (c : Corpus) : PosW (build_ingredient_network c) := by
  unfold build_ingredient_network
  have base : PosW (⟨[], []⟩ : NxGraph) := by
    intro p hp
    simp at hp
  revert base
  generalize (⟨[], []⟩ : NxGraph) = g0
  induction c generalizing g0 with
  | nil => intro hb; exact hb
  | cons r rest ih =>
    intro hb
    rw [List.foldl_cons]
    refine ih _ ?_
    have : ∀ (l : List Ingredient) (g : NxGraph), PosW g →
        PosW (l.foldl (recipeStep r) g) := by
      intro l
      induction l with
      | nil => intro g hg; exact hg
      | cons a rest2 ih2 =>
        intro g hg
        rw [List.foldl_cons]
        exact ih2 _ (posW_recipeStep r a g hg)
    exact this r g0 hb

theorem weightOf_none_iff (g : NxGraph) (u v : Int) (h : PosW g) :
    weightOf g u v = none ↔ wD g u v = 0 := by
  unfold wD
  cases hl : weightOf g u v with
  | none => simp
  | some w =>
    have : (ekey u v, w) ∈ g.edges := lookupW_mem _ _ _ hl
    have hw : 0 < w := h _ this
    simp
    omega

/-- The full closed form: the built graph has edge `{u,v}` exactly
when some ordered pair of unequal records contributes to it, and then
its weight is the total number of such contributions. -/
theorem weightOf_build (c : Corpus) (u v : Int) :
    weightOf (build_ingredient_network c) u v =
      if totalContrib c u v = 0 then none else some (totalContrib c u v) := by
  have hpos := posW_build c
  have hw := wD_build c u v
  by_cases h0 : totalContrib c u v = 0
  · rw [if_pos h0]
    rw [h0] at hw
    exact (weightOf_none_iff _ u v hpos).mpr hw
  · rw [if_neg h0]
    unfold wD at hw
    cases hl : weightOf (build_ingredient_network c) u v with
    | none =>
      rw [hl] at hw
      simp at hw
      exact absurd hw.symm h0
    | some w =>
      rw [hl] at hw
      simp at hw
      rw [hw]

theorem has_edge_build_iff (c : Corpus) (u v : Int) :
    has_edge (build_ingredient_network c) u v = true ↔
      totalContrib c u v ≠ 0 := by
  unfold has_edge
  have := weightOf_build c u v
  unfold weightOf at this
  rw [this]
  by_cases h0 : totalContrib c u v = 0 <;> simp [h0]

/-! ### Evenness of every contribution -/

theorem sum_map_ite_eq_countP {α : Type} (P : α → Bool) (l : List α) :
    (l.map (fun a => if P a then 1 else 0)).sum = l.countP P := by
  induction l with
  | nil => simp
  | cons x rest ih =>
    rw [List.map_cons, List.sum_cons, List.countP_cons, ih]
    by_cases h : P x <;> simp [h] <;> omega

theorem sum_map_add {α : Type} (f g : α → Nat) (l : List α) :
    (l.map (fun a => f a + g a)).sum = (l.map f).sum + (l.map g).sum := by
  induction l with
  | nil => simp
  | cons x rest ih =>
    simp only [List.map_cons, List.sum_cons, ih]
    omega

theorem countP_flip {α : Type} (P : α → α → Bool)
    (hsym : ∀ a b, P a b = P b a) (x : α) (l : List α) :
    l.countP (fun a => P a x) = l.countP (fun a => P x a) := by
  induction l with
  | nil => simp
  | cons y t iht => rw [List.countP_cons, List.countP_cons, iht, hsym]

theorem sum_map_countP_even {α : Type} (P : α → α → Bool)
    (hsym : ∀ a b, P a b = P b a) (hirr : ∀ a, P a a = false)
    (l : List α) : Even ((l.map (fun a => l.countP (P a))).sum) := by
  induction l with
  | nil => simp
  | cons x rest ih =>
    have hx : (x :: rest).countP (P x) = rest.countP (P x) := by
      rw [List.countP_cons, hirr x]
      simp
    have hmap : (rest.map (fun a => (x :: rest).countP (P a))).sum
        = (rest.map (fun a => rest.countP (P a))).sum + rest.countP (P x) := by
      have step : (rest.map (fun a => (x :: rest).countP (P a))).sum
          = (rest.map (fun a => rest.countP (P a) + (if P a x then 1 else 0))).sum := by
        congr 1
        exact List.map_congr_left (fun a _ => List.countP_cons (P a) x rest)
      rw [step, sum_map_add, sum_map_ite_eq_countP, countP_flip P hsym x rest]
    rw [List.map_cons, List.sum_cons, hx, hmap]
    have harv : rest.countP (P x) +
        ((rest.map (fun a => rest.countP (P a))).sum + rest.countP (P x)) =
        2 * rest.countP (P x) + (rest.map (fun a => rest.countP (P a))).sum := by
      omega
    rw [harv]
    exact (even_two_mul _).add ih

theorem totalContrib_even (c : Corpus) (u v : Int) :
    Even (totalContrib c u v) := by
  unfold totalContrib
  induction c with
  | nil => simp
  | cons r rest ih =>
    rw [List.map_cons, List.sum_cons]
    refine Even.add ?_ ih
    unfold pairContrib
    refine sum_map_countP_even (pairPred u v) ?_ ?_ r
    · intro a b
      unfold pairPred
      have h1 : decide (a ≠ b) = decide (b ≠ a) := by
        apply decide_eq_decide.mpr
        constructor <;> exact fun h hh => h hh.symm
      have h2 : decide (ekey a.id b.id = ekey u v) =
          decide (ekey b.id a.id = ekey u v) := by
        rw [ekey_comm a.id b.id]
      rw [h1, h2]
    · intro a
      simp [pairPred]

/-! ### Support for the self-edge analysis -/

theorem mem_le_sum (l : List Nat) (x : Nat) (h : x ∈ l) : x ≤ l.sum := by
  induction l with
  | nil => simp at h
  | cons y rest ih =>
    rw [List.sum_cons]
    rcases List.mem_cons.mp h with rfl | h2
    · omega
    · have := ih h2
      omega

theorem ekey_uu (u : Int) : ekey u u = (u, u) := by
  unfold ekey
  rw [if_pos le_rfl]

theorem pairPred_uu_iff (u : Int) (a b : Ingredient) :
    pairPred u u a b = true ↔ a ≠ b ∧ a.id = u ∧ b.id = u := by
  unfold pairPred
  rw [Bool.and_eq_true, decide_eq_true_iff, decide_eq_true_iff, ekey_uu,
    ekey_self_iff]

theorem totalContrib_uu_pos (c : Corpus) (u : Int)
    (h : ∃ r ∈ c, ∃ a ∈ r, ∃ b ∈ r, a ≠ b ∧ a.id = u ∧ b.id = u) :
    totalContrib c u u ≠ 0 := by
  obtain ⟨r, hr, a, ha, b, hb, hne, hau, hbu⟩ := h
  have hP : pairPred u u a b = true := (pairPred_uu_iff u a b).mpr ⟨hne, hau, hbu⟩
  have h1 : 0 < r.countP (pairPred u u a) := by
    rw [List.countP_pos_iff]
    exact ⟨b, hb, hP⟩
  have h2 : r.countP (pairPred u u a) ≤ pairContrib r u u := by
    unfold pairContrib
    exact mem_le_sum _ _ (List.mem_map.mpr ⟨a, ha, rfl⟩)
  have h3 : pairContrib r u u ≤ totalContrib c u u := by
    unfold totalContrib
    exact mem_le_sum _ _ (List.mem_map.mpr ⟨r, hr, rfl⟩)
  omega

theorem totalContrib_uu_zero (c : Corpus) (u : Int)
    (h : ∀ r ∈ c, ∀ a ∈ r, ∀ b ∈ r, a.id = u → b.id = u → a = b) :
    totalContrib c u u = 0 := by
  unfold totalContrib
  apply List.sum_eq_zero
  intro x hx
  obtain ⟨r, hr, rfl⟩ := List.mem_map.mp hx
  unfold pairContrib
  apply List.sum_eq_zero
  intro y hy
  obtain ⟨a, ha, rfl⟩ := List.mem_map.mp hy
  rw [List.countP_eq_zero]
  intro b hb hP
  obtain ⟨hne, hau, hbu⟩ := (pairPred_uu_iff u a b).mp hP
  exact hne (h r hr a ha b hb hau hbu)

/-! ### The recommendation sort -/

theorem length_insertDescByWeight (x : String × Nat) (l : List (String × Nat)) :
    (insertDescByWeight x l).length = l.length + 1 := by
  induction l with
  | nil => rfl
  | cons y ys ih =>
    unfold insertDescByWeight
    split
    · simp
    · simp only [List.length_cons, ih]

theorem length_pySortDescByWeight (l : List (String × Nat)) :
    (pySortDescByWeight l).length = l.length := by
  induction l with
  | nil => rfl
  | cons x ys ih =>
    unfold pySortDescByWeight at ih ⊢
    rw [List.foldr_cons, length_insertDescByWeight, ih, List.length_cons]

theorem perm_insertDescByWeight (x : String × Nat) (l : List (String × Nat)) :
    (insertDescByWeight x l).Perm (x :: l) := by
  induction l with
  | nil => exact List.Perm.refl _
  | cons y ys ih =>
    unfold insertDescByWeight
    split
    · exact List.Perm.refl _
    · exact (ih.cons y).trans (List.Perm.swap x y ys)

theorem perm_pySortDescByWeight (l : List (String × Nat)) :
    (pySortDescByWeight l).Perm l := by
  induction l with
  | nil => exact List.Perm.refl _
  | cons x ys ih =>
    unfold pySortDescByWeight at ih ⊢
    rw [List.foldr_cons]
    exact (perm_insertDescByWeight x _).trans (ih.cons x)

theorem mem_insertDescByWeight (z x : String × Nat) (l : List (String × Nat)) :
    z ∈ insertDescByWeight x l ↔ z = x ∨ z ∈ l := by
  rw [(perm_insertDescByWeight x l).mem_iff, List.mem_cons]

theorem pairwise_insertDescByWeight (x : String × Nat)
    (l : List (String × Nat))
    (h : List.Pairwise (fun a b => b.2 ≤ a.2) l) :
    List.Pairwise (fun a b => b.2 ≤ a.2) (insertDescByWeight x l) := by
  induction l with
  | nil => simp [insertDescByWeight]
  | cons y ys ih =>
    rw [List.pairwise_cons] at h
    obtain ⟨hy, hys⟩ := h
    unfold insertDescByWeight
    split
    case isTrue hc =>
      rw [List.pairwise_cons]
      refine ⟨?_, List.pairwise_cons.mpr ⟨hy, hys⟩⟩
      intro z hz
      rcases List.mem_cons.mp hz with rfl | hz2
      · exact hc
      · exact le_trans (hy z hz2) hc
    case isFalse hc =>
      rw [List.pairwise_cons]
      refine ⟨?_, ih hys⟩
      intro z hz
      rcases (mem_insertDescByWeight z x ys).mp hz with rfl | hz2
      · omega
      · exact hy z hz2

theorem pairwise_pySortDescByWeight (l : List (String × Nat)) :
    List.Pairwise (fun a b => b.2 ≤ a.2) (pySortDescByWeight l) := by
  induction l with
  | nil => simp [pySortDescByWeight]
  | cons x ys ih =>
    unfold pySortDescByWeight at ih ⊢
    rw [List.foldr_cons]
    exact pairwise_insertDescByWeight x _ ih

/-! ### Characters surviving the cleaning substitution -/

theorem countLeading_pos_of_head (p : Char → Bool) (c : Char)
    (rest : List Char) (h : p c = true) :
    0 < countLeading p (c :: rest) := by
  unfold countLeading
  rw [List.takeWhile_cons, if_pos h]
  simp

theorem wordTokens_nonempty : ∀ t ∈ wordTokens, 0 < t.length := by
  decide

theorem matchLen_eq_zero_head (c : Char) (rest : List Char)
    (h : matchLen (c :: rest) = 0) :
    c ≠ 'g' ∧ c ≠ '(' ∧ c ≠ ')' ∧ c ≠ '\\' := by
  simp only [matchLen] at h
  by_cases hd : c.isDigit = true
  · rw [if_pos hd] at h
    have := countLeading_pos_of_head Char.isDigit c rest hd
    omega
  · rw [if_neg hd] at h
    cases hfind : wordTokens.find? (fun t => t.isPrefixOf (c :: rest)) with
    | some t =>
      rw [hfind] at h
      simp at h
      have ht : t ∈ wordTokens := List.mem_of_find?_eq_some hfind
      rw [h] at ht
      exact absurd ht (by decide)
    | none =>
      rw [hfind] at h
      have h2 : (if c = '\\' then countLeading (fun x => decide (x = '\\')) (c :: rest)
          else if c = '(' ∨ c = ')' then 1 else 0) = 0 := h
      clear h
      have hng : c ≠ 'g' := by
        intro hcg
        have hmem : (['g'] : List Char) ∈ wordTokens := by decide
        have hnp := List.find?_eq_none.mp hfind _ hmem
        apply hnp
        subst hcg
        simp [List.isPrefixOf]
      refine ⟨hng, ?_, ?_, ?_⟩
      · intro hcp
        rw [if_neg ?_, if_pos (Or.inl hcp)] at h2
        · exact absurd h2 one_ne_zero
        · rw [hcp]; decide
      · intro hcp
        rw [if_neg ?_, if_pos (Or.inr hcp)] at h2
        · exact absurd h2 one_ne_zero
        · rw [hcp]; decide
      · intro hcb
        rw [if_pos hcb] at h2
        have hp : ((fun x => decide (x = '\\')) c) = true := by
          rw [hcb]; decide
        have hpos := countLeading_pos_of_head (fun x => decide (x = '\\')) c rest hp
        rw [h2] at hpos
        exact absurd hpos (lt_irrefl 0)

theorem pySubAux_avoid (c0 : Char)
    (hc : c0 = 'g' ∨ c0 = '(' ∨ c0 = ')' ∨ c0 = '\\') :
    ∀ (fuel : Nat) (s : List Char), c0 ∉ pySubAux fuel s := by
  intro fuel
  induction fuel with
  | zero => intro s; simp [pySubAux]
  | succ n ih =>
    intro s
    match s with
    | [] => simp [pySubAux]
    | c :: rest =>
      unfold pySubAux
      simp only []
      split
      · exact ih _
      case isFalse hn =>
        have h0 : matchLen (c :: rest) = 0 := by omega
        obtain ⟨h1, h2, h3, h4⟩ := matchLen_eq_zero_head c rest h0
        intro hmem
        rcases List.mem_cons.mp hmem with rfl | hmem2
        · rcases hc with rfl | rfl | rfl | rfl
          · exact h1 rfl
          · exact h2 rfl
          · exact h3 rfl
          · exact h4 rfl
        · exact ih rest hmem2

theorem mem_pyStripL (x : Char) (l : List Char) (h : x ∈ pyStripL l) :
    x ∈ l := by
  unfold pyStripL at h
  rw [List.mem_reverse] at h
  have h2 := (List.dropWhile_sublist (l := (l.dropWhile pySpace).reverse)
    (p := pySpace)).subset h
  rw [List.mem_reverse] at h2
  exact (List.dropWhile_sublist (l := l) (p := pySpace)).subset h2

theorem clean_avoid (c0 : Char)
    (hc : c0 = 'g' ∨ c0 = '(' ∨ c0 = ')' ∨ c0 = '\\') (s : String) :
    c0 ∉ (clean_ingredient_name s).data := by
  unfold clean_ingredient_name
  intro hmem
  have h2 := mem_pyStripL c0 _ hmem
  exact pySubAux_avoid c0 hc _ _ h2

/-! ### The co-occurrence dict: key structure -/

theorem keys_addTo (m : CoMap) (k x : String) :
    (addTo m k x).map Prod.fst = m.map Prod.fst := by
  unfold addTo
  rw [List.map_map]
  apply List.map_congr_left
  intro p _
  by_cases h : p.1 = k <;> simp [h]

theorem hasKey_iff (m : CoMap) (k : String) :
    hasKey m k = true ↔ k ∈ m.map Prod.fst := by
  unfold hasKey
  rw [List.any_eq_true]
  simp only [List.mem_map, decide_eq_true_eq]

theorem keys_ensureKey (m : CoMap) (k : String) :
    (ensureKey m k).map Prod.fst = setAdd (m.map Prod.fst) k := by
  unfold ensureKey setAdd
  by_cases h : hasKey m k = true
  · rw [if_pos h, if_pos ((hasKey_iff m k).mp h)]
  · rw [if_neg h, if_neg (fun hm => h ((hasKey_iff m k).mpr hm))]
    simp

theorem keys_jStep (i : Nat) (k : String) (m : CoMap) (q : Nat × String) :
    (jStep i k m q).map Prod.fst = m.map Prod.fst := by
  unfold jStep
  split
  · exact keys_addTo m k q.2
  · rfl

theorem keys_jfold (i : Nat) (k : String) (l : List (Nat × String)) :
    ∀ m : CoMap, (l.foldl (jStep i k) m).map Prod.fst = m.map Prod.fst := by
  induction l with
  | nil => intro m; rfl
  | cons q t ih =>
    intro m
    rw [List.foldl_cons, ih, keys_jStep]

theorem keys_iStep (names : List String) (m : CoMap) (p : Nat × String) :
    (iStep names m p).map Prod.fst = setAdd (m.map Prod.fst) p.2 := by
  unfold iStep
  rw [keys_jfold, keys_ensureKey]

theorem keys_ifold (names : List String) (l : List (Nat × String)) :
    ∀ m : CoMap,
      (l.foldl (iStep names) m).map Prod.fst =
        extendKeys (m.map Prod.fst) (l.map Prod.snd) := by
  induction l with
  | nil => intro m; rfl
  | cons p t ih =>
    intro m
    rw [List.foldl_cons, ih, keys_iStep]
    rfl

theorem enum_map_snd_eq (l : List String) : l.enum.map Prod.snd = l := by
  exact List.enum_map_snd l

theorem keys_processRecipe (m : CoMap) (r : Recipe) :
    (processRecipe m r).map Prod.fst =
      extendKeys (m.map Prod.fst) (recipeRawNames r) := by
  unfold processRecipe
  rw [keys_ifold, enum_map_snd_eq]

theorem extendKeys_append (ks : List String) (l1 l2 : List String) :
    extendKeys ks (l1 ++ l2) = extendKeys (extendKeys ks l1) l2 := by
  unfold extendKeys
  rw [List.foldl_append]

theorem keys_corpusFold (c : Corpus) :
    ∀ m : CoMap,
      ((c.foldl processRecipe m).map Prod.fst) =
        extendKeys (m.map Prod.fst) (c.flatMap recipeRawNames) := by
  induction c with
  | nil => intro m; rfl
  | cons r t ih =>
    intro m
    rw [List.foldl_cons, ih, keys_processRecipe, List.flatMap_cons,
      extendKeys_append]

theorem keys_buildCoOcc (c : Corpus) :
    (buildCoOcc c).map Prod.fst = spec_encounterOrder c := by
  unfold buildCoOcc spec_encounterOrder dedupKF
  rw [keys_corpusFold]
  rfl

/-! ### The co-occurrence dict: values -/

theorem lookupVal_isSome_iff (m : CoMap) (k : String) :
    (lookupVal m k).isSome = hasKey m k := by
  induction m with
  | nil => rfl
  | cons p rest ih =>
    unfold lookupVal hasKey
    by_cases h : p.1 = k
    · simp [h]
    · rw [if_neg h, List.any_cons]
      unfold hasKey at ih
      simp [h, ih]

theorem lookupVal_append (m1 m2 : CoMap) (k : String) :
    lookupVal (m1 ++ m2) k =
      match lookupVal m1 k with
      | some v => some v
      | none => lookupVal m2 k := by
  induction m1 with
  | nil => simp [lookupVal]
  | cons p rest ih => by_cases h : p.1 = k <;> simp [lookupVal, h, ih]

theorem lookupVal_addTo (m : CoMap) (k x n : String) :
    lookupVal (addTo m k x) n =
      if n = k then (lookupVal m n).map (fun s => setAdd s x)
      else lookupVal m n := by
  induction m with
  | nil =>
    by_cases hk : n = k <;> simp [addTo, lookupVal, hk]
  | cons p rest ih =>
    have haddTo : addTo (p :: rest) k x =
        (if p.1 = k then (p.1, setAdd p.2 x) else p) :: addTo rest k x := rfl
    rw [haddTo]
    by_cases hpk : p.1 = k
    · rw [if_pos hpk]
      by_cases hn : p.1 = n
      · have hnk : n = k := by rw [← hn, hpk]
        rw [show lookupVal ((p.1, setAdd p.2 x) :: addTo rest k x) n =
            some (setAdd p.2 x) from by simp [lookupVal, hn]]
        rw [if_pos hnk]
        rw [show lookupVal (p :: rest) n = some p.2 from by
          simp [lookupVal, hn]]
        rfl
      · rw [show lookupVal ((p.1, setAdd p.2 x) :: addTo rest k x) n =
            lookupVal (addTo rest k x) n from by simp [lookupVal, hn]]
        rw [ih]
        have hpr : lookupVal (p :: rest) n = lookupVal rest n := by
          simp [lookupVal, hn]
        by_cases hnk : n = k
        · rw [if_pos hnk, if_pos hnk, hpr]
        · rw [if_neg hnk, if_neg hnk, hpr]
    · rw [if_neg hpk]
      by_cases hn : p.1 = n
      · have hnk : ¬ n = k := by rw [← hn]; exact hpk
        rw [show lookupVal (p :: addTo rest k x) n = some p.2 from by
          simp [lookupVal, hn]]
        rw [if_neg hnk]
        rw [show lookupVal (p :: rest) n = some p.2 from by
          simp [lookupVal, hn]]
      · rw [show lookupVal (p :: addTo rest k x) n =
            lookupVal (addTo rest k x) n from by simp [lookupVal, hn], ih]
        have hpr : lookupVal (p :: rest) n = lookupVal rest n := by
          simp [lookupVal, hn]
        by_cases hnk : n = k
        · rw [if_pos hnk, if_pos hnk, hpr]
        · rw [if_neg hnk, if_neg hnk, hpr]

theorem lookupVal_none_of_hasKey_false (m : CoMap) (k : String)
    (h : hasKey m k = false) : lookupVal m k = none := by
  have hs := lookupVal_isSome_iff m k
  rw [h] at hs
  cases ho : lookupVal m k
  · rfl
  · rw [ho] at hs
    simp at hs

theorem lookupVal_ensureKey (m : CoMap) (k n : String) :
    lookupVal (ensureKey m k) n =
      if n = k then some ((lookupVal m k).getD []) else lookupVal m n := by
  unfold ensureKey
  by_cases h : hasKey m k = true
  · rw [if_pos h]
    by_cases hn : n = k
    · subst hn
      have hs : (lookupVal m n).isSome = true := by
        rw [lookupVal_isSome_iff]; exact h
      rw [if_pos rfl]
      cases ho : lookupVal m n
      · rw [ho] at hs; simp at hs
      · simp [ho]
    · rw [if_neg hn]
  · rw [if_neg h]
    rw [Bool.not_eq_true] at h
    have hs : lookupVal m k = none := lookupVal_none_of_hasKey_false m k h
    rw [lookupVal_append]
    by_cases hn : n = k
    · subst hn
      rw [hs]
      simp [lookupVal]
    · rw [if_neg hn]
      cases ho : lookupVal m n with
      | none =>
        simp only [ho, lookupVal]
        rw [if_neg (fun hh => hn hh.symm)]
      | some v => simp only [ho]

theorem lookupVal_jfold (i : Nat) (k : String) (l : List (Nat × String)) :
    ∀ (m : CoMap) (n : String),
      lookupVal (l.foldl (jStep i k) m) n =
        if n = k then
          (lookupVal m n).map
            (fun s =>
              (l.filterMap (fun q => if i ≠ q.1 then some q.2 else none)).foldl
                setAdd s)
        else lookupVal m n := by
  induction l with
  | nil =>
    intro m n
    by_cases hn : n = k <;> simp [hn]
  | cons q t ih =>
    intro m n
    rw [List.foldl_cons, ih]
    by_cases hn : n = k
    · rw [if_pos hn, if_pos hn]
      unfold jStep
      by_cases hiq : i ≠ q.1
      · have hfm : List.filterMap
            (fun q => if i ≠ q.1 then some q.2 else none) (q :: t) =
            q.2 :: List.filterMap
              (fun q => if i ≠ q.1 then some q.2 else none) t := by
          simp only [List.filterMap_cons, if_pos hiq]
        rw [if_pos hiq, lookupVal_addTo, if_pos hn, hfm, Option.map_map]
        rfl
      · have hfm : List.filterMap
            (fun q => if i ≠ q.1 then some q.2 else none) (q :: t) =
            List.filterMap
              (fun q => if i ≠ q.1 then some q.2 else none) t := by
          simp only [List.filterMap_cons, if_neg hiq]
        rw [if_neg hiq, hfm]
    · rw [if_neg hn, if_neg hn]
      unfold jStep
      by_cases hiq : i ≠ q.1
      · rw [if_pos hiq, lookupVal_addTo, if_neg hn]
      · rw [if_neg hiq]

theorem lookupVal_iStep (names : List String) (m : CoMap) (p : Nat × String)
    (n : String) :
    lookupVal (iStep names m p) n =
      if n = p.2 then
        some ((partnersAt names p.1).foldl setAdd ((lookupVal m n).getD []))
      else lookupVal m n := by
  unfold iStep
  rw [lookupVal_jfold]
  by_cases hn : n = p.2
  · rw [if_pos hn, if_pos hn, lookupVal_ensureKey, if_pos hn]
    rw [hn]
    rfl
  · rw [if_neg hn, if_neg hn, lookupVal_ensureKey, if_neg hn]

theorem lookupVal_ifold (names : List String) (l : List (Nat × String)) :
    ∀ (m : CoMap) (n : String),
      lookupVal (l.foldl (iStep names) m) n =
        if (lookupVal m n).isSome = true ∨ l.any (fun p => p.2 = n) = true then
          some ((l.flatMap
              (fun p => if p.2 = n then partnersAt names p.1 else [])).foldl
            setAdd ((lookupVal m n).getD []))
        else none := by
  induction l with
  | nil =>
    intro m n
    simp only [List.foldl_nil, List.any_nil, List.flatMap_nil]
    cases ho : lookupVal m n <;> simp
  | cons p t ih =>
    intro m n
    rw [List.foldl_cons, ih, lookupVal_iStep]
    by_cases hn : n = p.2
    · rw [if_pos hn]
      have hc : ((p :: t).any fun p2 => decide (p2.2 = n)) = true := by
        rw [List.any_cons]
        have hd : decide (p.2 = n) = true := by
          rw [decide_eq_true_eq]
          exact hn.symm
        rw [hd, Bool.true_or]
      simp only [Option.isSome_some, true_or, if_true, hc, or_true,
        Option.getD_some]
      rw [List.flatMap_cons, if_pos hn.symm, List.foldl_append]
    · rw [if_neg hn]
      have hh : ((p :: t).any fun p2 => decide (p2.2 = n)) =
          (t.any fun p2 => decide (p2.2 = n)) := by
        rw [List.any_cons]
        have hd : decide (p.2 = n) = false := by
          rw [decide_eq_false_iff_not]
          exact fun hh => hn hh.symm
        rw [hd, Bool.false_or]
      have hfm2 : ((p :: t).flatMap
            fun p2 => if p2.2 = n then partnersAt names p2.1 else []) =
          (t.flatMap fun p2 => if p2.2 = n then partnersAt names p2.1 else []) := by
        rw [List.flatMap_cons]
        rw [if_neg (fun hh => hn hh.symm), List.nil_append]
      rw [hfm2]
      by_cases h1 : (lookupVal m n).isSome = true ∨
          (t.any fun p2 => decide (p2.2 = n)) = true
      · rw [if_pos h1, if_pos (by rw [hh]; exact h1)]
      · rw [if_neg h1, if_neg (by rw [hh]; exact h1)]

theorem enumFrom_any_snd (xs : List String) (n : String) :
    ∀ k : Nat, ((List.enumFrom k xs).any (fun p => p.2 = n)) = true ↔ n ∈ xs := by
  induction xs with
  | nil => intro k; simp
  | cons x t ih =>
    intro k
    rw [List.enumFrom_cons, List.any_cons, List.mem_cons, Bool.or_eq_true]
    constructor
    · rintro (h | h)
      · left
        exact (decide_eq_true_eq.mp h).symm
      · right
        exact (ih (k + 1)).mp h
    · rintro (h | h)
      · left
        rw [decide_eq_true_eq]
        exact h.symm
      · right
        exact (ih (k + 1)).mpr h

theorem lookupVal_processRecipe (m : CoMap) (r : Recipe) (n : String) :
    lookupVal (processRecipe m r) n =
      if (lookupVal m n).isSome = true ∨ n ∈ recipeRawNames r then
        some ((coPartners (recipeRawNames r) n).foldl setAdd
          ((lookupVal m n).getD []))
      else none := by
  unfold processRecipe
  rw [lookupVal_ifold]
  have hany : ((recipeRawNames r).enum.any (fun p => p.2 = n)) = true ↔
      n ∈ recipeRawNames r := by
    unfold List.enum
    exact enumFrom_any_snd (recipeRawNames r) n 0
  by_cases h1 : (lookupVal m n).isSome = true ∨
      ((recipeRawNames r).enum.any (fun p => p.2 = n)) = true
  · have h2 : (lookupVal m n).isSome = true ∨ n ∈ recipeRawNames r := by
      rcases h1 with h | h
      · exact Or.inl h
      · exact Or.inr (hany.mp h)
    rw [if_pos h1, if_pos h2]
    rfl
  · have h2 : ¬ ((lookupVal m n).isSome = true ∨ n ∈ recipeRawNames r) := by
      rintro (h | h)
      · exact h1 (Or.inl h)
      · exact h1 (Or.inr (hany.mpr h))
    rw [if_neg h1, if_neg h2]

theorem lookupVal_corpusFold (c : Corpus) :
    ∀ (m : CoMap) (n : String),
      lookupVal (c.foldl processRecipe m) n =
        if (lookupVal m n).isSome = true ∨ ∃ r ∈ c, n ∈ recipeRawNames r then
          some ((c.flatMap (fun r => coPartners (recipeRawNames r) n)).foldl
            setAdd ((lookupVal m n).getD []))
        else none := by
  induction c with
  | nil =>
    intro m n
    simp only [List.foldl_nil, List.flatMap_nil]
    cases ho : lookupVal m n <;> simp
  | cons r t ih =>
    intro m n
    rw [List.foldl_cons, ih, lookupVal_processRecipe]
    by_cases hn : (lookupVal m n).isSome = true ∨ n ∈ recipeRawNames r
    · have hc2 : (lookupVal m n).isSome = true ∨
          ∃ r2 ∈ r :: t, n ∈ recipeRawNames r2 := by
        rcases hn with h | h
        · exact Or.inl h
        · exact Or.inr ⟨r, List.mem_cons_self r t, h⟩
      rw [if_pos hn, if_pos hc2]
      simp only [Option.isSome_some, true_or, if_true, Option.getD_some]
      rw [List.flatMap_cons, List.foldl_append]
    · rw [if_neg hn]
      push_neg at hn
      obtain ⟨hn1, hn2⟩ := hn
      have hno : lookupVal m n = none := by
        cases ho : lookupVal m n
        · rfl
        · rw [ho] at hn1
          simp at hn1
      have hcp : coPartners (recipeRawNames r) n = [] := by
        unfold coPartners
        apply List.flatMap_eq_nil_iff.mpr
        intro p hp
        rw [if_neg]
        intro hpn
        apply hn2
        rw [← hpn]
        have hpm : p ∈ (recipeRawNames r).enum := hp
        have h2 := List.mem_map_of_mem Prod.snd hpm
        rw [List.enum_map_snd] at h2
        exact h2
      rw [hno]
      simp only [Option.isSome_none, Bool.false_eq_true, false_or,
        Option.getD_none]
      rw [List.flatMap_cons, hcp, List.nil_append]
      by_cases h2 : ∃ r2 ∈ t, n ∈ recipeRawNames r2
      · have hc2 : ∃ r2 ∈ r :: t, n ∈ recipeRawNames r2 := by
          obtain ⟨r2, hr2, hnr2⟩ := h2
          exact ⟨r2, List.mem_cons_of_mem r hr2, hnr2⟩
        rw [if_pos h2, if_pos hc2]
      · have hc2 : ¬ ∃ r2 ∈ r :: t, n ∈ recipeRawNames r2 := by
          rintro ⟨r2, hr2, hnr2⟩
          rcases List.mem_cons.mp hr2 with rfl | hr2t
          · exact hn2 hnr2
          · exact h2 ⟨r2, hr2t, hnr2⟩
        rw [if_neg h2, if_neg hc2]

theorem lookupVal_buildCoOcc (c : Corpus) (n : String) :
    lookupVal (buildCoOcc c) n =
      if ∃ r ∈ c, n ∈ recipeRawNames r then some (spec_coOccurring c n)
      else none := by
  unfold buildCoOcc
  rw [lookupVal_corpusFold]
  simp only [lookupVal, Option.isSome_none, Bool.false_eq_true, false_or,
    Option.getD_none]
  rfl

/-! ### Dedup membership, key uniqueness and Python `max` -/

theorem mem_setAdd (s : List String) (y x : String) :
    x ∈ setAdd s y ↔ x ∈ s ∨ x = y := by
  unfold setAdd
  split
  case isTrue h =>
    constructor
    · exact Or.inl
    · rintro (hx | rfl)
      · exact hx
      · exact h
  case isFalse h => simp

theorem mem_extendKeys (l : List String) :
    ∀ (ks : List String) (x : String), x ∈ extendKeys ks l ↔ x ∈ ks ∨ x ∈ l := by
  induction l with
  | nil => intro ks x; simp [extendKeys]
  | cons y t ih =>
    intro ks x
    unfold extendKeys at ih ⊢
    rw [List.foldl_cons, ih, mem_setAdd, List.mem_cons]
    tauto

theorem nodup_setAdd (s : List String) (y : String) (h : s.Nodup) :
    (setAdd s y).Nodup := by
  unfold setAdd
  split
  case isTrue _ => exact h
  case isFalse hm =>
    rw [List.nodup_append]
    exact ⟨h, List.nodup_singleton y, by simpa using fun hy => hm hy⟩

theorem nodup_extendKeys (l : List String) :
    ∀ ks : List String, ks.Nodup → (extendKeys ks l).Nodup := by
  induction l with
  | nil => intro ks h; exact h
  | cons y t ih =>
    intro ks h
    unfold extendKeys at ih ⊢
    rw [List.foldl_cons]
    exact ih _ (nodup_setAdd ks y h)

theorem nodup_spec_encounterOrder (c : Corpus) :
    (spec_encounterOrder c).Nodup := by
  unfold spec_encounterOrder dedupKF
  exact nodup_extendKeys _ [] List.nodup_nil

theorem mem_spec_encounterOrder (c : Corpus) (n : String) :
    n ∈ spec_encounterOrder c ↔ ∃ r ∈ c, n ∈ recipeRawNames r := by
  unfold spec_encounterOrder dedupKF
  have h := mem_extendKeys (c.flatMap recipeRawNames) [] n
  unfold extendKeys at h
  rw [h]
  simp [List.mem_flatMap]

theorem lookupVal_of_mem_nodup (m : CoMap) (hnd : (m.map Prod.fst).Nodup)
    (k : String) (v : List String) (hm : (k, v) ∈ m) :
    lookupVal m k = some v := by
  induction m with
  | nil => simp at hm
  | cons p rest ih =>
    rw [List.map_cons, List.nodup_cons] at hnd
    rcases List.mem_cons.mp hm with rfl | hm2
    · simp [lookupVal]
    · have hk : ¬ p.1 = k := by
        intro he
        apply hnd.1
        rw [he]
        exact List.mem_map_of_mem Prod.fst hm2
      unfold lookupVal
      rw [if_neg hk]
      exact ih hnd.2 hm2

theorem maxFold_spec (xs : CoMap) :
    ∀ best : String × Nat,
      (∀ y ∈ xs, y.2.length ≤ (maxFold best xs).2) ∧
      best.2 ≤ (maxFold best xs).2 ∧
      (maxFold best xs = best ∨
        ∃ pre y suf, xs = pre ++ y :: suf ∧
          maxFold best xs = (y.1, y.2.length) ∧
          (∀ p ∈ pre, p.2.length < (maxFold best xs).2) ∧
          best.2 < (maxFold best xs).2) := by
  induction xs with
  | nil =>
    intro best
    exact ⟨by simp, le_refl _, Or.inl rfl⟩
  | cons y ys ih =>
    intro best
    rw [show maxFold best (y :: ys) =
      maxFold (if best.2 < y.2.length then (y.1, y.2.length) else best) ys from rfl]
    set best2 := if best.2 < y.2.length then (y.1, y.2.length) else best with hb2
    obtain ⟨ih1, ih2, ih3⟩ := ih best2
    have hyb : y.2.length ≤ best2.2 := by
      rw [hb2]
      split <;> omega
    have hbb : best.2 ≤ best2.2 := by
      rw [hb2]
      split <;> omega
    refine ⟨?_, le_trans hbb ih2, ?_⟩
    · intro z hz
      rcases List.mem_cons.mp hz with rfl | hz2
      · exact le_trans hyb ih2
      · exact ih1 z hz2
    · rcases ih3 with heq | ⟨pre, w, suf, hsplit, hval, hpre, hlt⟩
      · by_cases hup : best.2 < y.2.length
        · right
          refine ⟨[], y, ys, rfl, ?_, by simp, ?_⟩
          · rw [heq, hb2, if_pos hup]
          · rw [heq, hb2, if_pos hup]
            exact hup
        · left
          rw [heq, hb2, if_neg hup]
      · right
        refine ⟨y :: pre, w, suf, by rw [hsplit]; rfl, hval, ?_, ?_⟩
        · intro p hp
          rcases List.mem_cons.mp hp with rfl | hp2
          · exact lt_of_le_of_lt hyb hlt
          · exact hpre p hp2
        · exact lt_of_le_of_lt hbb hlt

theorem pyMaxByLen_spec (m : CoMap) (hne : m ≠ []) :
    ∃ pre ent suf, m = pre ++ ent :: suf ∧
      pyMaxByLen m = Except.ok (ent.1, ent.2.length) ∧
      (∀ p ∈ m, p.2.length ≤ ent.2.length) ∧
      (∀ p ∈ pre, p.2.length < ent.2.length) := by
  match m with
  | [] => exact absurd rfl hne
  | x :: xs =>
    obtain ⟨h1, h2, h3⟩ := maxFold_spec xs (x.1, x.2.length)
    rcases h3 with heq | ⟨pre, w, suf, hsplit, hval, hpre, hlt⟩
    · refine ⟨[], x, xs, rfl, ?_, ?_, by simp⟩
      · show Except.ok (maxFold (x.1, x.2.length) xs) =
          Except.ok (x.1, x.2.length)
        rw [heq]
      · intro p hp
        rcases List.mem_cons.mp hp with rfl | hp2
        · exact le_refl _
        · have hle := h1 p hp2
          rw [heq] at hle
          exact hle
    · refine ⟨x :: pre, w, suf, by rw [hsplit]; rfl, ?_, ?_, ?_⟩
      · show Except.ok (maxFold (x.1, x.2.length) xs) =
          Except.ok (w.1, w.2.length)
        rw [hval]
      · intro p hp
        rcases List.mem_cons.mp hp with rfl | hp2
        · have hle := h2
          rw [hval] at hle
          exact hle
        · have hle := h1 p hp2
          rw [hval] at hle
          exact hle
      · intro p hp
        rcases List.mem_cons.mp hp with rfl | hp2
        · have hle := hlt
          rw [hval] at hle
          exact hle
        · have hle := hpre p hp2
          rw [hval] at hle
          exact hle

/-! ## Claim theorems -/

/-- C1, counterexample: on the one-recipe corpus with ingredients
`(1, "a")` and `(2, "b")`, the built edge weight of `{1,2}` is 2,
while exactly one recipe contains both ids as distinct entries, so the
claimed equality `weight(u,v) = number of such recipes` fails. -/
theorem claim_C1_counterexample :
    ¬ (weightOf (build_ingredient_network [[⟨1, "a"⟩, ⟨2, "b"⟩]]) 1 2 =
        some (recipesContainingBoth [[⟨1, "a"⟩, ⟨2, "b"⟩]] 1 2)) := by
  decide

/-- C1 (amended): for every corpus and every pair of ids, the edge
weight after `build_ingredient_network` equals the number of ordered
pairs of unequal ingredient entries within a single recipe whose ids
form the unordered pair `{u,v}`, summed over all recipes (and the edge
is absent exactly when this total is zero) — each recipe containing
the pair on two distinct entries therefore contributes 2, not 1. -/
theorem claim_C1 (c : Corpus) (u v : Int) :
    weightOf (build_ingredient_network c) u v =
      if totalContrib c u v = 0 then none
      else some (totalContrib c u v) :=
  weightOf_build c u v

/-- C2, counterexample: on the empty corpus
`get_most_connected_ingredient` raises `ValueError` (`max()` of an
empty sequence) instead of returning an empty/NotFound-style
result. -/
theorem claim_C2_counterexample :
    get_most_connected_ingredient ([] : Corpus) =
      Except.error "max() arg is an empty sequence" := rfl

/-- C2 (amended): building catalog and graph from the empty corpus
yields an empty mapping and empty node and edge sets, and
`get_ingredient_recommendations` returns an empty result on them; but
`get_most_connected_ingredient` raises `ValueError` (`max()` of an
empty sequence) on the empty corpus rather than returning a
NotFound-style result. -/
theorem claim_C2 :
    build_ingredient_list ([] : Corpus) = [] ∧
    (build_ingredient_network ([] : Corpus)).nodes = [] ∧
    (build_ingredient_network ([] : Corpus)).edges = [] ∧
    (∀ (q : String) (ch n : Nat),
      get_ingredient_recommendations (build_ingredient_list [])
        (build_ingredient_network []) q ch n = []) ∧
    get_most_connected_ingredient ([] : Corpus) =
      Except.error "max() arg is an empty sequence" :=
  ⟨rfl, rfl, rfl, fun _ _ _ => rfl, rfl⟩

/-- C3, counterexample: a recipe containing two entries with the same
id and the same name produces no self-edge at all — the two records
are equal, `ingredient != other_ingredient` fails, and the pair is
skipped — contradicting the claim that such a pair is treated as
non-identical and produces a self-edge. -/
theorem claim_C3_counterexample :
    weightOf (build_ingredient_network [[⟨1, "a"⟩, ⟨1, "a"⟩]]) 1 1 = none := by
  decide

/-- C3 (amended): distinctness is checked by full-record identity,
so two entries with the same id but different names are treated as a
non-identical pair and do produce a self-edge at that id; entries
identical in both id and name are equal records and are skipped, so
they produce no self-edge. -/
theorem claim_C3 :
    (∀ (c : Corpus) (u : Int),
      (∃ r ∈ c, ∃ a ∈ r, ∃ b ∈ r, a ≠ b ∧ a.id = u ∧ b.id = u) →
      has_edge (build_ingredient_network c) u u = true) ∧
    (∀ (c : Corpus) (u : Int),
      (∀ r ∈ c, ∀ a ∈ r, ∀ b ∈ r, a.id = u → b.id = u → a = b) →
      has_edge (build_ingredient_network c) u u = false) := by
  constructor
  · intro c u h
    exact (has_edge_build_iff c u u).mpr (totalContrib_uu_pos c u h)
  · intro c u h
    rw [← Bool.not_eq_true, has_edge_build_iff c u u]
    intro hne
    exact hne (totalContrib_uu_zero c u h)

/-- C3, witness: a recipe with entries `(1, "x")` and `(1, "y")`
yields a self-edge at id 1; a recipe with two identical `(1, "z")`
entries yields none. -/
theorem claim_C3_witness :
    has_edge (build_ingredient_network [[⟨1, "x"⟩, ⟨1, "y"⟩]]) 1 1 = true ∧
    has_edge (build_ingredient_network [[⟨1, "z"⟩, ⟨1, "z"⟩]]) 1 1 = false :=
  ⟨claim_C3.1 [[⟨1, "x"⟩, ⟨1, "y"⟩]] 1
      ⟨[⟨1, "x"⟩, ⟨1, "y"⟩], by decide, ⟨1, "x"⟩, by decide, ⟨1, "y"⟩,
        by decide, by decide, rfl, rfl⟩,
   claim_C3.2 [[⟨1, "z"⟩, ⟨1, "z"⟩]] 1 (by decide)⟩

/-- C4: both `{id 1, name "2 tbsp Butter"}` (seen first) and
`{id 2, name "butter"}` clean to the key `"butter"`, and the built
catalog holds exactly one entry mapping id 1 to its raw display name,
with no entry for id 2. -/
theorem claim_C4 :
    cleanedKey "2 tbsp Butter" = "butter" ∧
    cleanedKey "butter" = "butter" ∧
    build_ingredient_list [[⟨1, "2 tbsp Butter"⟩], [⟨2, "butter"⟩]] =
      [(1, "2 tbsp Butter")] := by
  refine ⟨by decide, by decide, by decide⟩

/-- C5, counterexample: the cleaning step does not remove the plus
character — `clean_ingredient_name "+"` keeps it — because the raw
pattern's `\\+` matches backslash runs, not `+`. -/
theorem claim_C5_counterexample :
    '+' ∈ (clean_ingredient_name "+").data := by decide

/-- C5 (amended): the single substitution pass removes stray
parenthesis and backslash characters (besides the unit/quantity and
connector tokens) and the result is trimmed; plus and minus characters
are not removed, since the pattern's `\\+` and `\\-` denote literal
backslash sequences rather than the plus and minus characters. -/
theorem claim_C5 :
    (∀ s : String, '(' ∉ (clean_ingredient_name s).data ∧
      ')' ∉ (clean_ingredient_name s).data ∧
      '\\' ∉ (clean_ingredient_name s).data) ∧
    clean_ingredient_name "(x)" = "x" ∧
    clean_ingredient_name "\\" = "" ∧
    clean_ingredient_name "+" = "+" ∧
    clean_ingredient_name "-" = "-" := by
  refine ⟨?_, by decide, by decide, by decide, by decide⟩
  intro s
  exact ⟨clean_avoid '(' (Or.inr (Or.inl rfl)) s,
    clean_avoid ')' (Or.inr (Or.inr (Or.inl rfl))) s,
    clean_avoid '\\' (Or.inr (Or.inr (Or.inr rfl))) s⟩

/-- C6: the built graph is undirected with a single shared weight per
edge, so `weight(u,v) = weight(v,u)` for every corpus and every pair
of ids. -/
theorem claim_C6 (c : Corpus) (u v : Int) :
    weightOf (build_ingredient_network c) u v =
      weightOf (build_ingredient_network c) v u := by
  unfold weightOf
  rw [ekey_comm]

/-- C9: every edge of the built graph has an even weight of at least
2: the ordered double loop visits each unordered pair of unequal
records in both orders, so contributions always come in pairs. -/
theorem claim_C9 (c : Corpus) (u v : Int)
    (h : has_edge (build_ingredient_network c) u v = true) :
    ∃ k, weightOf (build_ingredient_network c) u v = some (2 * k) ∧ 1 ≤ k := by
  have hnz := (has_edge_build_iff c u v).mp h
  obtain ⟨k, hk⟩ := totalContrib_even c u v
  refine ⟨k, ?_, ?_⟩
  · rw [weightOf_build, if_neg hnz, hk, two_mul]
  · omega

/-- C9, witness: the edge `{1,2}` of the one-recipe corpus with
ingredients `(1, "a")` and `(2, "b")` exists and its weight is the
even number 2. -/
theorem claim_C9_witness :
    has_edge (build_ingredient_network [[⟨1, "a"⟩, ⟨2, "b"⟩]]) 1 2 = true ∧
    ∃ k, weightOf (build_ingredient_network [[⟨1, "a"⟩, ⟨2, "b"⟩]]) 1 2 =
      some (2 * k) ∧ 1 ≤ k :=
  ⟨by decide, claim_C9 [[⟨1, "a"⟩, ⟨2, "b"⟩]] 1 2 (by decide)⟩

/-- C10: the substitution has no word-boundary check: the token `g` is
deleted wherever it occurs, so every output of the cleaning function
is free of the letter `g`; in particular `"grape"` and `"rape"` both
clean to `"rape"`, and the later-seen of the two raw names is dropped
from the catalog by the dedup step. -/
theorem claim_C10 :
    (∀ s : String, 'g' ∉ (clean_ingredient_name s).data) ∧
    clean_ingredient_name "grape" = "rape" ∧
    clean_ingredient_name "rape" = "rape" ∧
    build_ingredient_list [[⟨1, "grape"⟩], [⟨2, "rape"⟩]] = [(1, "grape")] := by
  refine ⟨?_, by decide, by decide, by decide⟩
  intro s
  exact clean_avoid 'g' (Or.inl rfl) s

/-- C7, counterexample: the corpus holding one recipe with an empty
ingredient list is a non-empty corpus, yet
`get_most_connected_ingredient` raises `ValueError` (`max()` of an
empty sequence) on it instead of returning a name and a count. -/
theorem claim_C7_counterexample :
    get_most_connected_ingredient [[]] =
      Except.error "max() arg is an empty sequence" := rfl

/-- C7 (amended): for every corpus containing at least one recipe with
a nonempty ingredient list, `get_most_connected_ingredient` returns a
trimmed lowercased raw ingredient name of the corpus together with the
size of its accumulated co-occurrence set (the raw names at other
positions of recipes it occurs in, deduplicated); that size is maximal
among all names, and every name encountered earlier in corpus
iteration order has a strictly smaller set, so ties go to the name
first encountered, on every run. -/
theorem claim_C7 (c : Corpus) (h : ∃ r ∈ c, r ≠ []) :
    ∃ nm pre suf,
      get_most_connected_ingredient c =
        Except.ok (nm, (spec_coOccurring c nm).length) ∧
      spec_encounterOrder c = pre ++ nm :: suf ∧
      (∀ m ∈ spec_encounterOrder c,
        (spec_coOccurring c m).length ≤ (spec_coOccurring c nm).length) ∧
      (∀ m ∈ pre,
        (spec_coOccurring c m).length < (spec_coOccurring c nm).length) := by
  have hval : ∀ q ∈ buildCoOcc c, q.2 = spec_coOccurring c q.1 := by
    intro q hq
    have hnd : ((buildCoOcc c).map Prod.fst).Nodup := by
      rw [keys_buildCoOcc]
      exact nodup_spec_encounterOrder c
    have hl : lookupVal (buildCoOcc c) q.1 = some q.2 :=
      lookupVal_of_mem_nodup _ hnd q.1 q.2 hq
    have hcond : ∃ r ∈ c, q.1 ∈ recipeRawNames r := by
      apply (mem_spec_encounterOrder c q.1).mp
      rw [← keys_buildCoOcc]
      exact List.mem_map_of_mem Prod.fst hq
    rw [lookupVal_buildCoOcc, if_pos hcond] at hl
    exact (Option.some_injective _ hl).symm
  have hne : buildCoOcc c ≠ [] := by
    obtain ⟨r, hr, hrne⟩ := h
    have hn0 : ∃ n0, n0 ∈ recipeRawNames r := by
      cases hrr : r with
      | nil => exact absurd hrr hrne
      | cons i t =>
        exact ⟨pyNameOf i,
          show pyNameOf i ∈ pyNameOf i :: t.map pyNameOf from
            List.mem_cons_self _ _⟩
    obtain ⟨n0, hn0⟩ := hn0
    have hmem : n0 ∈ spec_encounterOrder c :=
      (mem_spec_encounterOrder c n0).mpr ⟨r, hr, hn0⟩
    intro hbe
    rw [← keys_buildCoOcc, hbe] at hmem
    simp at hmem
  obtain ⟨pre0, ent, suf0, hsplit, hok, hmax, hpre⟩ := pyMaxByLen_spec _ hne
  have hent : ent ∈ buildCoOcc c := by
    rw [hsplit]
    exact List.mem_append_right pre0 (List.mem_cons_self ent suf0)
  have hentval : ent.2 = spec_coOccurring c ent.1 := hval ent hent
  refine ⟨ent.1, pre0.map Prod.fst, suf0.map Prod.fst, ?_, ?_, ?_, ?_⟩
  · unfold get_most_connected_ingredient
    rw [hok, hentval]
  · rw [← keys_buildCoOcc, hsplit, List.map_append, List.map_cons]
  · intro m hm
    rw [← keys_buildCoOcc] at hm
    obtain ⟨q, hq, rfl⟩ := List.mem_map.mp hm
    have hle := hmax q hq
    rw [hval q hq, hentval] at hle
    exact hle
  · intro m hm
    obtain ⟨q, hq, rfl⟩ := List.mem_map.mp hm
    have hqm : q ∈ buildCoOcc c := by
      rw [hsplit]
      exact List.mem_append_left _ hq
    have hlt := hpre q hq
    rw [hval q hqm, hentval] at hlt
    exact hlt

/-- C7, witness: on a corpus with one two-ingredient recipe the
amended statement instantiates: its hypothesis holds and the query
returns a maximal first-encountered name. -/
theorem claim_C7_witness :
    (∃ r ∈ ([[⟨1, "a"⟩, ⟨2, "b"⟩]] : Corpus), r ≠ []) ∧
    ∃ nm pre suf,
      get_most_connected_ingredient ([[⟨1, "a"⟩, ⟨2, "b"⟩]] : Corpus) =
        Except.ok (nm,
          (spec_coOccurring [[⟨1, "a"⟩, ⟨2, "b"⟩]] nm).length) ∧
      spec_encounterOrder [[⟨1, "a"⟩, ⟨2, "b"⟩]] = pre ++ nm :: suf ∧
      (∀ m ∈ spec_encounterOrder [[⟨1, "a"⟩, ⟨2, "b"⟩]],
        (spec_coOccurring [[⟨1, "a"⟩, ⟨2, "b"⟩]] m).length ≤
          (spec_coOccurring [[⟨1, "a"⟩, ⟨2, "b"⟩]] nm).length) ∧
      (∀ m ∈ pre,
        (spec_coOccurring [[⟨1, "a"⟩, ⟨2, "b"⟩]] m).length <
          (spec_coOccurring [[⟨1, "a"⟩, ⟨2, "b"⟩]] nm).length) :=
  ⟨⟨[⟨1, "a"⟩, ⟨2, "b"⟩], by decide, by decide⟩,
    claim_C7 [[⟨1, "a"⟩, ⟨2, "b"⟩]]
      ⟨[⟨1, "a"⟩, ⟨2, "b"⟩], by decide, by decide⟩⟩

/-- C8: recommendations are the neighbor `(name, weight)` entries of
the resolved node sorted descending by weight, truncated to the first
`top_n` (default 5) with no padding: on a node with neighbors of
weights 3, 5, 1, asking for 2 returns the weight-5 then weight-3
entries; on a node with 2 neighbors, asking for 10 returns exactly
those 2; in general the output is the `top_n`-prefix of the stable
descending sort (a permutation of the entries), its weights are
descending, and its length is `min top_n (number of neighbors)`. -/
theorem claim_C8 :
    (get_ingredient_recommendations
        [(1, "anise"), (2, "basil"), (3, "clove"), (4, "dill")]
        ⟨[(1, none), (2, none), (3, none), (4, none)],
         [((1, 2), 3), ((1, 3), 5), ((1, 4), 1)]⟩ "anise" 1 2 =
      [("clove", 5), ("basil", 3)]) ∧
    (get_ingredient_recommendations
        [(1, "anise"), (2, "basil"), (3, "clove")]
        ⟨[(1, none), (2, none), (3, none)], [((1, 2), 4), ((1, 3), 2)]⟩
        "anise" 1 10 =
      [("basil", 4), ("clove", 2)]) ∧
    (∀ (il : List (Int × String)) (g : NxGraph) (q : String) (ch n : Nat),
      List.Pairwise (fun a b => b.2 ≤ a.2)
        (get_ingredient_recommendations il g q ch n)) ∧
    (∀ (l : List (String × Nat)), (pySortDescByWeight l).Perm l) ∧
    (∀ (il : List (Int × String)) (g : NxGraph) (q : String) (ch : Nat),
      get_ingredient_recommendations_default il g q ch =
        get_ingredient_recommendations il g q ch 5) ∧
    (∀ (il : List (Int × String)) (g : NxGraph) (q : String) (ch n : Nat),
      matchesOf il q ≠ [] →
      neighborsOf g (pickOf il q ch).1 ≠ [] →
      get_ingredient_recommendations il g q ch n =
        (pySortDescByWeight (entriesOf il g (pickOf il q ch).1)).take n ∧
      (get_ingredient_recommendations il g q ch n).length =
        min n (neighborsOf g (pickOf il q ch).1).length) := by
  refine ⟨by decide, by decide, ?_, perm_pySortDescByWeight, fun _ _ _ _ => rfl, ?_⟩
  · intro il g q ch n
    simp only [get_ingredient_recommendations]
    split
    · exact List.Pairwise.nil
    · split
      · exact List.Pairwise.nil
      · exact List.Pairwise.sublist (List.take_sublist _ _)
          (pairwise_pySortDescByWeight _)
  · intro il g q ch n h1 h2
    have e1 : (matchesOf il q).isEmpty = false := by
      cases hm : matchesOf il q with
      | nil => exact absurd hm h1
      | cons a t => rfl
    have e2 : (neighborsOf g (pickOf il q ch).1).isEmpty = false := by
      cases hm : neighborsOf g (pickOf il q ch).1 with
      | nil => exact absurd hm h2
      | cons a t => rfl
    constructor
    · simp only [get_ingredient_recommendations, e1, e2, Bool.false_eq_true,
        if_false]
    · simp only [get_ingredient_recommendations, e1, e2, Bool.false_eq_true,
        if_false]
      rw [List.length_take, length_pySortDescByWeight]
      unfold entriesOf
      rw [List.length_map]

/-- C8, witness: the first example's match list and neighbor list are
nonempty, and the general prefix-of-sorted description instantiates on
it. -/
theorem claim_C8_witness :
    matchesOf [(1, "anise"), (2, "basil"), (3, "clove"), (4, "dill")]
      "anise" ≠ [] ∧
    neighborsOf (⟨[(1, none), (2, none), (3, none), (4, none)],
        [((1, 2), 3), ((1, 3), 5), ((1, 4), 1)]⟩ : NxGraph)
      (pickOf [(1, "anise"), (2, "basil"), (3, "clove"), (4, "dill")]
        "anise" 1).1 ≠ [] ∧
    (get_ingredient_recommendations
        [(1, "anise"), (2, "basil"), (3, "clove"), (4, "dill")]
        ⟨[(1, none), (2, none), (3, none), (4, none)],
         [((1, 2), 3), ((1, 3), 5), ((1, 4), 1)]⟩ "anise" 1 2 =
      (pySortDescByWeight (entriesOf
        [(1, "anise"), (2, "basil"), (3, "clove"), (4, "dill")]
        ⟨[(1, none), (2, none), (3, none), (4, none)],
         [((1, 2), 3), ((1, 3), 5), ((1, 4), 1)]⟩
        (pickOf [(1, "anise"), (2, "basil"), (3, "clove"), (4, "dill")]
          "anise" 1).1)).take 2 ∧
     (get_ingredient_recommendations
        [(1, "anise"), (2, "basil"), (3, "clove"), (4, "dill")]
        ⟨[(1, none), (2, none), (3, none), (4, none)],
         [((1, 2), 3), ((1, 3), 5), ((1, 4), 1)]⟩ "anise" 1 2).length =
      min 2 (neighborsOf (⟨[(1, none), (2, none), (3, none), (4, none)],
          [((1, 2), 3), ((1, 3), 5), ((1, 4), 1)]⟩ : NxGraph)
        (pickOf [(1, "anise"), (2, "basil"), (3, "clove"), (4, "dill")]
          "anise" 1).1).length) :=
  ⟨by decide, by decide,
    claim_C8.2.2.2.2.2
      [(1, "anise"), (2, "basil"), (3, "clove"), (4, "dill")]
      ⟨[(1, none), (2, none), (3, none), (4, none)],
       [((1, 2), 3), ((1, 3), 5), ((1, 4), 1)]⟩ "anise" 1 2
      (by decide) (by decide)⟩

end Recipes
